import Mathlib

/-!
Verification of the WBS diagram generator (`scripts/generate_diagram.py`).

The script builds an `OutlineNode` tree from a nested JSON document, lays the
tree out radially (angle/radius per node), and renders it as a PDF mind map,
a markdown outline, or an ASCII tree.

Shallow embedding conventions:
* `OutlineNode` becomes the inductive `Node`; the mutable `depth`, `angle`,
  `radius` fields are ordinary fields and the layout pass returns a new tree.
  The `parent` back-reference is implicit in the tree structure.
* Python floats become exact rationals `ℚ`.  `math.pi` is embedded as an
  explicit parameter `piv : ℚ` (the algorithm's arithmetic is uniform in the
  numeric value of pi, so every theorem below is either quantified over `piv`
  or instantiated at a concrete rational standing in for it).
* `raw["title"]` raising `KeyError` becomes `Except BuildErr`.
* File/dir side effects of `main` are modelled as an explicit `Effect` list.
-/

namespace WBS

/-- Tree node mirroring the `OutlineNode` dataclass: `title`, optional `code`,
`children`, and the drawing metadata `depth`, `angle`, `radius` (`parent` is
implicit in the tree shape). -/
inductive Node where
  | mk (title : String) (code : Option String) (depth : ℕ) (angle : ℚ) (radius : ℚ)
       (children : List Node)

def Node.title : Node → String
  | .mk t _ _ _ _ _ => t

def Node.code : Node → Option String
  | .mk _ c _ _ _ _ => c

def Node.depth : Node → ℕ
  | .mk _ _ d _ _ _ => d

def Node.angle : Node → ℚ
  | .mk _ _ _ a _ _ => a

def Node.radius : Node → ℚ
  | .mk _ _ _ _ r _ => r

def Node.children : Node → List Node
  | .mk _ _ _ _ _ cs => cs

/-- Source `OutlineNode.label`: `f"{self.code} {self.title}" if self.code else
self.title`.  Python's truthiness test makes an empty-string code behave like
an absent one. -/
def Node.label : Node → String
  | .mk t none _ _ _ _ => t
  | .mk t (some c) _ _ _ _ => if c = "" then t else c ++ " " ++ t

/-- Raw input document: `{"title": ..., "code"?: ..., "children"?: [...]}`.
`title` is `none` when the key is absent; `children` models
`raw.get("children", [])`, under which an absent list and an empty list are
indistinguishable. -/
inductive Raw where
  | mk (title : Option String) (code : Option String) (children : List Raw)

def Raw.title : Raw → Option String
  | .mk t _ _ => t

/-- Failure of `build_tree`: Python raises `KeyError` on `raw["title"]` when a
node has no `title` (the spec's DataError / MalformedInput). -/
inductive BuildErr where
  | missingTitle
deriving DecidableEq

mutual
/-- Source `build_tree(raw, depth=0, parent=None)`: reads `raw["title"]`
(failing when absent), `raw.get("code")`, then builds the children at
`depth + 1`.  `angle`/`radius` keep their dataclass defaults `0.0`. -/
def buildTree (raw : Raw) (depth : ℕ) : Except BuildErr Node :=
  match raw with
  | .mk none _ _ => .error .missingTitle
  | .mk (some t) c cs =>
    match buildForest cs (depth + 1) with
    | .error e => .error e
    | .ok kids => .ok (.mk t c depth 0 0 kids)

/-- Children of one node, built in input order (the list comprehension in
`build_tree`). -/
def buildForest (raws : List Raw) (depth : ℕ) : Except BuildErr (List Node) :=
  match raws with
  | [] => .ok []
  | r :: rest =>
    match buildTree r depth with
    | .error e => .error e
    | .ok n =>
      match buildForest rest depth with
      | .error e => .error e
      | .ok ns => .ok (n :: ns)
end

mutual
/-- Source `_assign_branch(node, depth=d, angle=a, radius_step=rs, spread=sp)`:
sets `node.depth = d`, `node.angle = a`, `node.radius = d * rs`, then fans the
children out at `depth + 1`.  The Python code materialises the list
`child_angles` with `child_angles[idx] = angle - local_spread/2 + step*idx`
(or `[angle]` for a single child); here each child receives its angle through
the index function built below, which is that same expression. -/
def assignBranch (node : Node) (depth : ℕ) (angle : ℚ) (rs sp : ℚ) : Node :=
  match node with
  | .mk t c _ _ _ cs =>
    let childCount := cs.length
    let localSpread := sp / ((depth : ℚ) + 1/2)
    let childAngle : ℕ → ℚ := fun idx =>
      if childCount = 1 then angle
      else angle - localSpread / 2 + (localSpread / ((childCount : ℚ) - 1)) * (idx : ℚ)
    .mk t c depth angle ((depth : ℚ) * rs) (assignForest cs 0 childAngle (depth + 1) rs sp)

/-- The `for idx, child in enumerate(node.children)` loop of `_assign_branch`
(and of `layout_tree`): child at position `i` gets angle `f i`. -/
def assignForest (cs : List Node) (i : ℕ) (f : ℕ → ℚ) (depth : ℕ) (rs sp : ℚ) : List Node :=
  match cs with
  | [] => []
  | c :: rest => assignBranch c depth (f i) rs sp :: assignForest rest (i + 1) f depth rs sp
end

/-- Source `layout_tree(root, radius_step=1.6, spread=1.6)`: root gets angle
`pi/2` and radius `0`; first-level child `idx` gets angle
`pi/2 - tau*idx/branch_count` (with `tau = 2*pi`) and is assigned at depth 1.
When the root has no children the early return leaves an identical result,
since the forest walk over `[]` is empty. -/
def layoutTree (root : Node) (rs sp piv : ℚ) : Node :=
  match root with
  | .mk t c d _ _ cs =>
    let branchCount := cs.length
    .mk t c d (piv / 2) 0
      (assignForest cs 0 (fun idx => piv / 2 - (2 * piv) * (idx : ℚ) / (branchCount : ℚ)) 1 rs sp)

/-- Python's `"\n".join(lines)`. -/
def joinNL : List String → String
  | [] => ""
  | [s] => s
  | s :: rest => s ++ "\n" ++ joinNL rest

/-- Source `indent = "    " * depth` in `export_markdown._walk`. -/
def mdIndent : ℕ → String
  | 0 => ""
  | d + 1 => "    " ++ mdIndent d

mutual
/-- Source `_walk(node, depth, bucket)` of `export_markdown`: appends
`f"{indent}- {node.label}"`, then the children at `depth + 1`. -/
def mdWalk (node : Node) (depth : ℕ) : List String :=
  match node with
  | .mk t c dd a r cs =>
    (mdIndent depth ++ "- " ++ Node.label (.mk t c dd a r cs)) :: mdWalkForest cs (depth + 1)

/-- The `for child in node.children` loop of `_walk`. -/
def mdWalkForest (cs : List Node) (depth : ℕ) : List String :=
  match cs with
  | [] => []
  | c :: rest => mdWalk c depth ++ mdWalkForest rest (depth)
end

/-- The `lines` list of `export_markdown`: heading, blank separator, then each
first-level subtree walked at depth 0. -/
def mdLines (root : Node) : List String :=
  ("# " ++ root.label) :: "" :: mdWalkForest root.children 0

/-- Source `export_markdown`: the written file content
`"\n".join(lines) + "\n"`. -/
def exportMarkdown (root : Node) : String :=
  joinNL (mdLines root) ++ "\n"

mutual
/-- Source `_walk_ascii(node, prefix=p, is_last=l, bucket)`: appends
`f"{prefix}{connector} {node.label}"` and recurses with the extended prefix
when there are children. -/
def walkAscii (node : Node) (pre : String) (isLast : Bool) : List String :=
  match node with
  | .mk t c dd a r cs =>
    let connector := if isLast then "└──" else "├──"
    let line := pre ++ connector ++ " " ++ Node.label (.mk t c dd a r cs)
    match cs with
    | [] => [line]
    | c0 :: rest =>
      line :: walkForestAscii (c0 :: rest) (pre ++ (if isLast then "    " else "│   "))

/-- The `for idx, child in enumerate(node.children)` loop of `_walk_ascii`:
`is_last` holds exactly for the final child. -/
def walkForestAscii (cs : List Node) (pre : String) : List String :=
  match cs with
  | [] => []
  | [c] => walkAscii c pre true
  | c :: c' :: rest => walkAscii c pre false ++ walkForestAscii (c' :: rest) pre
end

/-- The top-level loop of `export_ascii`: walks each first-level child with an
empty prefix and inserts the `"│"` plus blank spacer after every non-last
child. -/
def asciiTop : List Node → List String
  | [] => []
  | [c] => walkAscii c "" true
  | c :: c' :: rest => walkAscii c "" false ++ ["│", ""] ++ asciiTop (c' :: rest)

/-- The `lines` list of `export_ascii`: the root label, then (when the root
has children) a `"│"` line and the walked branches. -/
def asciiLines (root : Node) : List String :=
  match root.children with
  | [] => [root.label]
  | c :: rest => root.label :: "│" :: asciiTop (c :: rest)

/-- Source `export_ascii`: the written file content
`"\n".join(lines) + "\n"`. -/
def exportAscii (root : Node) : String :=
  joinNL (asciiLines root) ++ "\n"

mutual
/-- Labels of a subtree in the order `iter_nodes` yields its nodes: the node
itself, then each child subtree depth-first in input order (pre-order). -/
def labelsPre (n : Node) : List String :=
  match n with
  | .mk t c d a r cs => Node.label (.mk t c d a r cs) :: labelsForest cs

def labelsForest : List Node → List String
  | [] => []
  | c :: cs => labelsPre c ++ labelsForest cs
end

mutual
/-- Angles of a subtree's nodes, pre-order. -/
def subtreeAngles (n : Node) : List ℚ :=
  match n with
  | .mk _ _ _ a _ cs => a :: subtreeAnglesForest cs

def subtreeAnglesForest : List Node → List ℚ
  | [] => []
  | c :: cs => subtreeAngles c ++ subtreeAnglesForest cs
end

mutual
/-- Every node of a subtree paired with its structural depth, pre-order,
where the subtree's own root sits at depth `d`. -/
def nodesWithDepth (n : Node) (d : ℕ) : List (Node × ℕ) :=
  match n with
  | .mk t c dd a r cs => (⟨t, c, dd, a, r, cs⟩, d) :: nodesWithDepthForest cs (d + 1)

def nodesWithDepthForest : List Node → ℕ → List (Node × ℕ)
  | [], _ => []
  | c :: cs, d => nodesWithDepth c d ++ nodesWithDepthForest cs d
end

/-- The layout-independent part of a node: `title`, `code` and the child
structure, with `depth`/`angle`/`radius` erased. -/
inductive Shape where
  | mk (title : String) (code : Option String) (children : List Shape)

mutual
def shapeOf : Node → Shape
  | .mk t c _ _ _ cs => .mk t c (shapeForest cs)

def shapeForest : List Node → List Shape
  | [] => []
  | c :: cs => shapeOf c :: shapeForest cs
end

mutual
/-- The depth invariant: this subtree's root carries depth field `d` and every
child chain increments by one. -/
def DepthOk : Node → ℕ → Prop
  | .mk _ _ dd _ _ cs, d => dd = d ∧ DepthOkForest cs (d + 1)

def DepthOkForest : List Node → ℕ → Prop
  | [], _ => True
  | c :: cs, d => DepthOk c d ∧ DepthOkForest cs d
end

/-- Output format chosen by `--format`. -/
inductive Fmt where
  | pdf
  | markdown
  | ascii

/-- Observable side effects of `main`, in program order: `ensure_output_dir`,
the input read in `load_outline`, `output_path.parent.mkdir`, the single
output-file write, and the final `print`.  A markdown/ascii write carries the
written text; the PDF raster bytes are outside this text-level embedding, so
a pdf write carries `none`. -/
inductive Effect where
  | mkdirOutputDir
  | readInput
  | mkdirParent
  | writeFile (content : Option String)
  | printPath
deriving DecidableEq

def Effect.isWrite : Effect → Bool
  | .writeFile _ => true
  | _ => false

/-- Source `main()` as the sequence of effects it performs paired with the
error that aborts it, if any: `ensure_output_dir()`, `load_outline()`,
`build_tree(outline)` — which on a missing title raises, ending the run with
no further effect — then `output_path.parent.mkdir`, the render (layout with
the default `radius_step=1.6`, `spread=1.6` happens only for pdf), the single
file write and the success message. -/
def mainRun (input : Raw) (fmt : Fmt) (piv : ℚ) : List Effect × Option BuildErr :=
  match buildTree input 0 with
  | .error e => ([.mkdirOutputDir, .readInput], some e)
  | .ok root =>
    let content : Option String :=
      match fmt with
      | .pdf =>
        match layoutTree root (8/5) (8/5) piv with
        | _ => none
      | .markdown => some (exportMarkdown root)
      | .ascii => some (exportAscii root)
    ([.mkdirOutputDir, .readInput, .mkdirParent, .writeFile content, .printPath], none)

/-- Modelled from the spec (4.2, bullet 2): the angle of the `i`-th of `N`
first-level children, `angle_i = 90° − 360°·i/N`, with `90° = pi/2` and
`360° = 2·pi`. -/
def specFirstLevelAngle (piv : ℚ) (n i : ℕ) : ℚ :=
  piv / 2 - 2 * piv * (i : ℚ) / (n : ℚ)

/-- Modelled from the spec (4.2, bullet 3): a node at depth `d` with assigned
angle `θ` fans its `k` children inside a window of width `spread / (d + 0.5)`
centred on `θ`; a single child inherits `θ` exactly, and `k > 1` children are
evenly spaced from the window's left edge to its right edge, child `i`
sitting at `leftEdge + width·i/(k−1)`. -/
def specFanAngle (sp : ℚ) (d : ℕ) (θ : ℚ) (k i : ℕ) : ℚ :=
  let width := sp / ((d : ℚ) + 1/2)
  if k = 1 then θ
  else (θ - width / 2) + width * (i : ℚ) / ((k : ℚ) - 1)

mutual
/-- Modelled from the spec: the pre-order angle sequence of a subtree whose
root sits at depth `d` with assigned angle `θ`. -/
def specAssignAngles (n : Node) (d : ℕ) (θ : ℚ) (sp : ℚ) : List ℚ :=
  match n with
  | .mk _ _ _ _ _ cs => θ :: specForestAngles cs 0 (specFanAngle sp d θ cs.length) (d + 1) sp

def specForestAngles (cs : List Node) (i : ℕ) (f : ℕ → ℚ) (d : ℕ) (sp : ℚ) : List ℚ :=
  match cs with
  | [] => []
  | c :: rest => specAssignAngles c d (f i) sp ++ specForestAngles rest (i + 1) f d sp
end

/-- Modelled from the spec (4.2): the full reference angle assignment — root
at `90°`, first-level children by the `angle_i` formula, deeper nodes by the
fan-out rule — as a pre-order angle sequence. -/
def specAnglesOf (root : Node) (sp piv : ℚ) : List ℚ :=
  piv / 2 :: specForestAngles root.children 0
    (specFirstLevelAngle piv root.children.length) 1 sp

/-- Leading indentation spaces of a markdown line. -/
def dropSpaces : List Char → List Char
  | ' ' :: rest => dropSpaces rest
  | cs => cs

/-- Strip a markdown line down to its label: drop the indentation, then the
`"# "` heading marker or the `"- "` bullet; a line with neither (the blank
separator) carries no label. -/
def mdStripLine (s : String) : Option String :=
  match dropSpaces s.data with
  | '#' :: ' ' :: rest => some (String.mk rest)
  | '-' :: ' ' :: rest => some (String.mk rest)
  | _ => none

/-- Leading ancestor-guide blocks of an ASCII line: the four-character units
`"    "` and `"│   "` that `_walk_ascii` accumulates in `prefix`. -/
def stripBlocks : List Char → List Char
  | ' ' :: ' ' :: ' ' :: ' ' :: rest => stripBlocks rest
  | '│' :: ' ' :: ' ' :: ' ' :: rest => stripBlocks rest
  | cs => cs

/-- Strip an ASCII-tree line down to its label: drop the ancestor guides and
the `"├── "` / `"└── "` connector; a pure spacer line (`"│"` or blank)
carries no label; the undecorated root line is its own label. -/
def asciiStripLine (s : String) : Option String :=
  match stripBlocks s.data with
  | '├' :: '─' :: '─' :: ' ' :: rest => some (String.mk rest)
  | '└' :: '─' :: '─' :: ' ' :: rest => some (String.mk rest)
  | [] => none
  | ['│'] => none
  | _ => some s

/-- Two subtrees' angular windows are disjoint: the window of a subtree is the
smallest interval containing all its descendants' angles, and two such
intervals miss each other exactly when all angles of one side sit strictly
below all angles of the other. -/
def WedgesSeparated (a b : Node) : Prop :=
  (∀ x ∈ subtreeAngles a, ∀ y ∈ subtreeAngles b, x < y) ∨
  (∀ y ∈ subtreeAngles b, ∀ x ∈ subtreeAngles a, y < x)

mutual
/-- Throughout the tree, the angular windows of any two distinct sibling
subtrees are disjoint. -/
def SiblingWedges : Node → Prop
  | .mk _ _ _ _ _ cs => List.Pairwise WedgesSeparated cs ∧ SiblingWedgesForest cs

def SiblingWedgesForest : List Node → Prop
  | [] => True
  | c :: cs => SiblingWedges c ∧ SiblingWedgesForest cs
end

mutual
/-- Throughout the subtree, every node's children have their own assigned
angles within the half-window `spread/(depth + 0.5)/2` either side of the
node's angle. -/
def ChildAnglesConfined (sp : ℚ) : Node → Prop
  | .mk _ _ d θ _ cs =>
    (∀ c ∈ cs, |c.angle - θ| ≤ sp / ((d : ℚ) + 1/2) / 2) ∧
    ChildAnglesConfinedForest sp cs

def ChildAnglesConfinedForest (sp : ℚ) : List Node → Prop
  | [] => True
  | c :: cs => ChildAnglesConfined sp c ∧ ChildAnglesConfinedForest sp cs
end

/-- Scenario input `{"title":"Root","children":[{"title":"A"},{"title":"B"}]}`
shared by Scenarios 1 and 2. -/
def scenarioRaw : Raw :=
  .mk (some "Root") none [.mk (some "A") none [], .mk (some "B") none []]

/-- Counterexample input for the wedge-disjointness claim: a root with one
first-level branch `X` whose children `A`, `B`, `C` each fan out again. -/
def c1cex : Node :=
  .mk "R" none 0 0 0
    [.mk "X" none 0 0 0
      [.mk "A" none 0 0 0 [.mk "A1" none 0 0 0 [], .mk "A2" none 0 0 0 []],
       .mk "B" none 0 0 0 [.mk "B1" none 0 0 0 [], .mk "B2" none 0 0 0 []],
       .mk "C" none 0 0 0 []]]

/-- The tree `build_tree` produces from `scenarioRaw`. -/
def scenarioTree : Node :=
  .mk "Root" none 0 0 0 [.mk "A" none 1 0 0 [], .mk "B" none 1 0 0 []]

/-- Character lists made of the four-character ancestor-guide blocks `"    "`
and `"│   "` — the exact shape of every `prefix` that `_walk_ascii` builds. -/
inductive Guards : List Char → Prop where
  | nil : Guards []
  | pad (p : List Char) : Guards p → Guards (' ' :: ' ' :: ' ' :: ' ' :: p)
  | bar (p : List Char) : Guards p → Guards ('│' :: ' ' :: ' ' :: ' ' :: p)

/-- Structural induction for `Node` with the hypothesis available for every
member of the child list. -/
def Node.inductionOn {P : Node → Prop}
    (h : ∀ t c d a r cs, (∀ m ∈ cs, P m) → P (.mk t c d a r cs)) :
    ∀ n, P n
  | .mk t c d a r cs => h t c d a r cs (fun m hm => Node.inductionOn h m)
termination_by n => sizeOf n
decreasing_by
  simp_wf
  have := List.sizeOf_lt_of_mem hm
  omega

/-- Structural induction for `Raw` with the hypothesis available for every
member of the child list. -/
def Raw.inductionOn {P : Raw → Prop}
    (h : ∀ t c cs, (∀ m ∈ cs, P m) → P (.mk t c cs)) :
    ∀ r, P r
  | .mk t c cs => h t c cs (fun m hm => Raw.inductionOn h m)
termination_by r => sizeOf r
decreasing_by
  simp_wf
  have := List.sizeOf_lt_of_mem hm
  omega

/-! ## String-level helper lemmas -/

theorem string_data_append (s t : String) : (s ++ t).data = s.data ++ t.data := by
  cases s; cases t; rfl

theorem string_eq_of_data {s t : String} (h : s.data = t.data) : s = t := by
  cases s; cases t; exact congrArg String.mk h

theorem dropSpaces_sp (cs : List Char) : dropSpaces (' ' :: cs) = dropSpaces cs := rfl

theorem dropSpaces_dash (cs : List Char) : dropSpaces ('-' :: cs) = '-' :: cs := rfl

theorem dropSpaces_hash (cs : List Char) : dropSpaces ('#' :: cs) = '#' :: cs := rfl

theorem dropSpaces_indent (d : ℕ) (cs : List Char) :
    dropSpaces ((mdIndent d).data ++ cs) = dropSpaces cs := by
  induction d with
  | zero => rfl
  | succ d ih =>
    show dropSpaces (("    " ++ mdIndent d).data ++ cs) = dropSpaces cs
    rw [string_data_append]
    show dropSpaces (' ' :: ' ' :: ' ' :: ' ' :: ((mdIndent d).data ++ cs)) = dropSpaces cs
    rw [dropSpaces_sp, dropSpaces_sp, dropSpaces_sp, dropSpaces_sp, ih]

theorem mdStrip_heading (l : String) : mdStripLine ("# " ++ l) = some l := by
  unfold mdStripLine
  rw [string_data_append]
  show (match dropSpaces ('#' :: ' ' :: l.data) with
    | '#' :: ' ' :: rest => some (String.mk rest)
    | '-' :: ' ' :: rest => some (String.mk rest)
    | _ => none) = some l
  rw [dropSpaces_hash]
  rfl

theorem mdStrip_item (d : ℕ) (l : String) :
    mdStripLine (mdIndent d ++ "- " ++ l) = some l := by
  unfold mdStripLine
  rw [string_data_append, string_data_append]
  rw [List.append_assoc]
  show (match dropSpaces ((mdIndent d).data ++ ('-' :: ' ' :: l.data)) with
    | '#' :: ' ' :: rest => some (String.mk rest)
    | '-' :: ' ' :: rest => some (String.mk rest)
    | _ => none) = some l
  rw [dropSpaces_indent, dropSpaces_dash]
  rfl

theorem mdStrip_blank : mdStripLine "" = none := rfl

theorem stripBlocks_pad (cs : List Char) :
    stripBlocks (' ' :: ' ' :: ' ' :: ' ' :: cs) = stripBlocks cs := rfl

theorem stripBlocks_bar (cs : List Char) :
    stripBlocks ('│' :: ' ' :: ' ' :: ' ' :: cs) = stripBlocks cs := rfl

theorem stripBlocks_mid (cs : List Char) : stripBlocks ('├' :: cs) = '├' :: cs := rfl

theorem stripBlocks_last (cs : List Char) : stripBlocks ('└' :: cs) = '└' :: cs := rfl

theorem guards_append {p q : List Char} (hp : Guards p) (hq : Guards q) :
    Guards (p ++ q) := by
  induction hp with
  | nil => exact hq
  | pad p hp ih => exact .pad _ ih
  | bar p hp ih => exact .bar _ ih

theorem stripBlocks_guards {p : List Char} (hp : Guards p) (cs : List Char) :
    stripBlocks (p ++ cs) = stripBlocks cs := by
  induction hp with
  | nil => rfl
  | pad p hp ih =>
    show stripBlocks (' ' :: ' ' :: ' ' :: ' ' :: (p ++ cs)) = stripBlocks cs
    rw [stripBlocks_pad, ih]
  | bar p hp ih =>
    show stripBlocks ('│' :: ' ' :: ' ' :: ' ' :: (p ++ cs)) = stripBlocks cs
    rw [stripBlocks_bar, ih]

theorem asciiStrip_mid (pre l : String) (hp : Guards pre.data) :
    asciiStripLine (pre ++ "├──" ++ " " ++ l) = some l := by
  unfold asciiStripLine
  rw [string_data_append, string_data_append, string_data_append,
    List.append_assoc, List.append_assoc]
  show (match stripBlocks (pre.data ++ ('├' :: '─' :: '─' :: ' ' :: l.data)) with
    | '├' :: '─' :: '─' :: ' ' :: rest => some (String.mk rest)
    | '└' :: '─' :: '─' :: ' ' :: rest => some (String.mk rest)
    | [] => none
    | ['│'] => none
    | _ => some (pre ++ "├──" ++ " " ++ l)) = some l
  rw [stripBlocks_guards hp, stripBlocks_mid]
  rfl

theorem asciiStrip_last (pre l : String) (hp : Guards pre.data) :
    asciiStripLine (pre ++ "└──" ++ " " ++ l) = some l := by
  unfold asciiStripLine
  rw [string_data_append, string_data_append, string_data_append,
    List.append_assoc, List.append_assoc]
  show (match stripBlocks (pre.data ++ ('└' :: '─' :: '─' :: ' ' :: l.data)) with
    | '├' :: '─' :: '─' :: ' ' :: rest => some (String.mk rest)
    | '└' :: '─' :: '─' :: ' ' :: rest => some (String.mk rest)
    | [] => none
    | ['│'] => none
    | _ => some (pre ++ "└──" ++ " " ++ l)) = some l
  rw [stripBlocks_guards hp, stripBlocks_last]
  rfl

theorem asciiStrip_spacer : asciiStripLine "│" = none := rfl

theorem asciiStrip_blank : asciiStripLine "" = none := rfl

/-! ## Renderer traversal lemmas -/

theorem filterMap_spacer : List.filterMap asciiStripLine ["│", ""] = [] := rfl

theorem mdForest_strip (cs : List Node) :
    ∀ d : ℕ, (∀ c ∈ cs, ∀ d' : ℕ, List.filterMap mdStripLine (mdWalk c d') = labelsPre c) →
    List.filterMap mdStripLine (mdWalkForest cs d) = labelsForest cs := by
  induction cs with
  | nil => intro d hih; rfl
  | cons c rest ih =>
    intro d hih
    show List.filterMap mdStripLine (mdWalk c d ++ mdWalkForest rest d) =
      labelsPre c ++ labelsForest rest
    rw [List.filterMap_append, hih c (List.mem_cons_self c rest) d,
      ih d (fun m hm d' => hih m (List.mem_cons_of_mem _ hm) d')]

theorem mdWalk_strip (n : Node) :
    ∀ d : ℕ, List.filterMap mdStripLine (mdWalk n d) = labelsPre n := by
  induction n using Node.inductionOn with
  | h t c dd a r cs ih =>
    intro d
    show List.filterMap mdStripLine
        ((mdIndent d ++ "- " ++ Node.label (.mk t c dd a r cs)) :: mdWalkForest cs (d + 1)) =
      Node.label (.mk t c dd a r cs) :: labelsForest cs
    rw [List.filterMap_cons_some (mdStrip_item d _),
      mdForest_strip cs (d + 1) (fun m hm d' => ih m hm d')]

theorem walkForest_strip (cs : List Node) :
    ∀ pre : String, Guards pre.data →
    (∀ c ∈ cs, ∀ (pre' : String) (isLast : Bool), Guards pre'.data →
      List.filterMap asciiStripLine (walkAscii c pre' isLast) = labelsPre c) →
    List.filterMap asciiStripLine (walkForestAscii cs pre) = labelsForest cs := by
  induction cs with
  | nil => intro pre hp hih; rfl
  | cons c rest ih =>
    intro pre hp hih
    cases rest with
    | nil =>
      show List.filterMap asciiStripLine (walkAscii c pre true) = labelsPre c ++ []
      rw [hih c (List.mem_cons_self c []) pre true hp, List.append_nil]
    | cons c' rest' =>
      show List.filterMap asciiStripLine
          (walkAscii c pre false ++ walkForestAscii (c' :: rest') pre) =
        labelsPre c ++ labelsForest (c' :: rest')
      rw [List.filterMap_append, hih c (List.mem_cons_self c _) pre false hp,
        ih pre hp (fun m hm => hih m (List.mem_cons_of_mem _ hm))]

theorem walkAscii_strip (n : Node) :
    ∀ (pre : String) (isLast : Bool), Guards pre.data →
    List.filterMap asciiStripLine (walkAscii n pre isLast) = labelsPre n := by
  induction n using Node.inductionOn with
  | h t c dd a r cs ih =>
    intro pre isLast hp
    cases cs with
    | nil =>
      cases isLast with
      | true =>
        show List.filterMap asciiStripLine
            [pre ++ "└──" ++ " " ++ Node.label (.mk t c dd a r [])] =
          Node.label (.mk t c dd a r []) :: labelsForest []
        rw [List.filterMap_cons_some (asciiStrip_last pre _ hp)]
        rfl
      | false =>
        show List.filterMap asciiStripLine
            [pre ++ "├──" ++ " " ++ Node.label (.mk t c dd a r [])] =
          Node.label (.mk t c dd a r []) :: labelsForest []
        rw [List.filterMap_cons_some (asciiStrip_mid pre _ hp)]
        rfl
    | cons c0 rest =>
      have hmem : ∀ m ∈ c0 :: rest, ∀ (pre' : String) (isLast' : Bool), Guards pre'.data →
          List.filterMap asciiStripLine (walkAscii m pre' isLast') = labelsPre m :=
        fun m hm pre' isLast' hp' => ih m hm pre' isLast' hp'
      cases isLast with
      | true =>
        have hp' : Guards (pre ++ "    ").data := by
          rw [string_data_append]
          exact guards_append hp (.pad [] .nil)
        show List.filterMap asciiStripLine
            ((pre ++ "└──" ++ " " ++ Node.label (.mk t c dd a r (c0 :: rest))) ::
              walkForestAscii (c0 :: rest) (pre ++ "    ")) =
          Node.label (.mk t c dd a r (c0 :: rest)) :: labelsForest (c0 :: rest)
        rw [List.filterMap_cons_some (asciiStrip_last pre _ hp),
          walkForest_strip (c0 :: rest) (pre ++ "    ") hp' hmem]
      | false =>
        have hp' : Guards (pre ++ "│   ").data := by
          rw [string_data_append]
          exact guards_append hp (.bar [] .nil)
        show List.filterMap asciiStripLine
            ((pre ++ "├──" ++ " " ++ Node.label (.mk t c dd a r (c0 :: rest))) ::
              walkForestAscii (c0 :: rest) (pre ++ "│   ")) =
          Node.label (.mk t c dd a r (c0 :: rest)) :: labelsForest (c0 :: rest)
        rw [List.filterMap_cons_some (asciiStrip_mid pre _ hp),
          walkForest_strip (c0 :: rest) (pre ++ "│   ") hp' hmem]

theorem asciiTop_strip (cs : List Node) :
    List.filterMap asciiStripLine (asciiTop cs) = labelsForest cs := by
  induction cs with
  | nil => rfl
  | cons c rest ih =>
    cases rest with
    | nil =>
      show List.filterMap asciiStripLine (walkAscii c "" true) = labelsPre c ++ []
      rw [walkAscii_strip c "" true .nil, List.append_nil]
    | cons c' rest' =>
      show List.filterMap asciiStripLine
          ((walkAscii c "" false ++ ["│", ""]) ++ asciiTop (c' :: rest')) =
        labelsPre c ++ labelsForest (c' :: rest')
      rw [List.filterMap_append, List.filterMap_append, filterMap_spacer,
        walkAscii_strip c "" false .nil, ih, List.append_nil]

/-! ## Layout lemmas -/

theorem assignBranch_angle (n : Node) (d : ℕ) (θ rs sp : ℚ) :
    (assignBranch n d θ rs sp).angle = θ := by
  cases n; rfl

theorem depthOkForest_build (raws : List Raw) :
    ∀ (d : ℕ) (ns : List Node), buildForest raws d = .ok ns →
    (∀ r ∈ raws, ∀ (d' : ℕ) (t : Node), buildTree r d' = .ok t → DepthOk t d') →
    DepthOkForest ns d := by
  induction raws with
  | nil =>
    intro d ns h hih
    simp only [buildForest] at h
    cases h
    trivial
  | cons r rest ih =>
    intro d ns h hih
    simp only [buildForest] at h
    cases hb : buildTree r d with
    | error e => rw [hb] at h; cases h
    | ok n =>
      rw [hb] at h
      cases hf : buildForest rest d with
      | error e => rw [hf] at h; cases h
      | ok ns' =>
        rw [hf] at h
        cases h
        exact ⟨hih r (List.mem_cons_self r rest) d n hb,
          ih d ns' hf (fun m hm d' t' h' => hih m (List.mem_cons_of_mem _ hm) d' t' h')⟩

theorem depthOk_build (raw : Raw) :
    ∀ (d : ℕ) (t : Node), buildTree raw d = .ok t → DepthOk t d := by
  induction raw using Raw.inductionOn with
  | h title c cs ih =>
    intro d t h
    cases title with
    | none => simp only [buildTree] at h; cases h
    | some t0 =>
      simp only [buildTree] at h
      cases hf : buildForest cs (d + 1) with
      | error e => rw [hf] at h; cases h
      | ok kids =>
        rw [hf] at h
        cases h
        exact ⟨rfl, depthOkForest_build cs (d + 1) kids hf ih⟩

theorem depthOkForest_assign (cs : List Node) :
    ∀ (i : ℕ) (f : ℕ → ℚ) (d : ℕ) (rs sp : ℚ),
    (∀ c ∈ cs, ∀ (d' : ℕ) (θ : ℚ), DepthOk (assignBranch c d' θ rs sp) d') →
    DepthOkForest (assignForest cs i f d rs sp) d := by
  induction cs with
  | nil => intro i f d rs sp hih; trivial
  | cons c rest ih =>
    intro i f d rs sp hih
    exact ⟨hih c (List.mem_cons_self c rest) d (f i),
      ih (i + 1) f d rs sp (fun m hm => hih m (List.mem_cons_of_mem _ hm))⟩

theorem depthOk_assign (n : Node) :
    ∀ (d : ℕ) (θ rs sp : ℚ), DepthOk (assignBranch n d θ rs sp) d := by
  induction n using Node.inductionOn with
  | h t c dd a r cs ih =>
    intro d θ rs sp
    exact ⟨rfl, depthOkForest_assign cs 0 _ (d + 1) rs sp
      (fun m hm d' θ' => ih m hm d' θ' rs sp)⟩

theorem radius_forest (rs sp : ℚ) (cs : List Node) :
    ∀ (i : ℕ) (f : ℕ → ℚ) (d : ℕ) (p : Node × ℕ),
    (∀ c ∈ cs, ∀ (d' : ℕ) (θ : ℚ) (p' : Node × ℕ),
      p' ∈ nodesWithDepth (assignBranch c d' θ rs sp) d' → p'.1.radius = (p'.2 : ℚ) * rs) →
    p ∈ nodesWithDepthForest (assignForest cs i f d rs sp) d → p.1.radius = (p.2 : ℚ) * rs := by
  induction cs with
  | nil =>
    intro i f d p hih hp
    simp only [assignForest, nodesWithDepthForest, List.not_mem_nil] at hp
  | cons c rest ih =>
    intro i f d p hih hp
    simp only [assignForest, nodesWithDepthForest] at hp
    rcases List.mem_append.mp hp with h1 | h2
    · exact hih c (List.mem_cons_self c rest) d (f i) p h1
    · exact ih (i + 1) f d p (fun m hm => hih m (List.mem_cons_of_mem _ hm)) h2

theorem radius_assign (rs sp : ℚ) (n : Node) :
    ∀ (d : ℕ) (θ : ℚ) (p : Node × ℕ),
    p ∈ nodesWithDepth (assignBranch n d θ rs sp) d → p.1.radius = (p.2 : ℚ) * rs := by
  induction n using Node.inductionOn with
  | h t c dd a r cs ih =>
    intro d θ p hp
    simp only [assignBranch, nodesWithDepth] at hp
    rcases List.mem_cons.mp hp with h1 | h2
    · rw [h1]
      show (d : ℚ) * rs = (d : ℚ) * rs
      rfl
    · exact radius_forest rs sp cs 0 _ (d + 1) p
        (fun m hm d' θ' p' hp' => ih m hm d' θ' p' hp') h2

theorem shape_forest (rs sp : ℚ) (cs : List Node) :
    ∀ (i : ℕ) (f : ℕ → ℚ) (d : ℕ),
    (∀ c ∈ cs, ∀ (d' : ℕ) (θ : ℚ), shapeOf (assignBranch c d' θ rs sp) = shapeOf c) →
    shapeForest (assignForest cs i f d rs sp) = shapeForest cs := by
  induction cs with
  | nil => intro i f d hih; rfl
  | cons c rest ih =>
    intro i f d hih
    show shapeOf (assignBranch c d (f i) rs sp) ::
        shapeForest (assignForest rest (i + 1) f d rs sp) =
      shapeOf c :: shapeForest rest
    rw [hih c (List.mem_cons_self c rest) d (f i),
      ih (i + 1) f d (fun m hm => hih m (List.mem_cons_of_mem _ hm))]

theorem shape_assign (rs sp : ℚ) (n : Node) :
    ∀ (d : ℕ) (θ : ℚ), shapeOf (assignBranch n d θ rs sp) = shapeOf n := by
  induction n using Node.inductionOn with
  | h t c dd a r cs ih =>
    intro d θ
    show Shape.mk t c (shapeForest (assignForest cs 0 _ (d + 1) rs sp)) =
      Shape.mk t c (shapeForest cs)
    rw [shape_forest rs sp cs 0 _ (d + 1) (fun m hm d' θ' => ih m hm d' θ')]

theorem spec_forest (rs sp : ℚ) (cs : List Node) :
    ∀ (i : ℕ) (fc fs : ℕ → ℚ) (d : ℕ),
    (∀ j, fc j = fs j) →
    (∀ c ∈ cs, ∀ (d' : ℕ) (θ : ℚ),
      subtreeAngles (assignBranch c d' θ rs sp) = specAssignAngles c d' θ sp) →
    subtreeAnglesForest (assignForest cs i fc d rs sp) = specForestAngles cs i fs d sp := by
  induction cs with
  | nil => intro i fc fs d hf hih; rfl
  | cons c rest ih =>
    intro i fc fs d hf hih
    show subtreeAngles (assignBranch c d (fc i) rs sp) ++
        subtreeAnglesForest (assignForest rest (i + 1) fc d rs sp) =
      specAssignAngles c d (fs i) sp ++ specForestAngles rest (i + 1) fs d sp
    rw [hf i, hih c (List.mem_cons_self c rest) d (fs i),
      ih (i + 1) fc fs d hf (fun m hm => hih m (List.mem_cons_of_mem _ hm))]

theorem spec_assign (rs sp : ℚ) (n : Node) :
    ∀ (d : ℕ) (θ : ℚ), subtreeAngles (assignBranch n d θ rs sp) = specAssignAngles n d θ sp := by
  induction n using Node.inductionOn with
  | h t c dd a r cs ih =>
    intro d θ
    show θ :: subtreeAnglesForest (assignForest cs 0 _ (d + 1) rs sp) =
      θ :: specForestAngles cs 0 (specFanAngle sp d θ cs.length) (d + 1) sp
    congr 1
    refine spec_forest rs sp cs 0 _ _ (d + 1) ?_ (fun m hm d' θ' => ih m hm d' θ')
    intro j
    show (if cs.length = 1 then θ
        else θ - sp / ((d : ℚ) + 1/2) / 2 +
          sp / ((d : ℚ) + 1/2) / ((cs.length : ℚ) - 1) * (j : ℚ)) =
      specFanAngle sp d θ cs.length j
    simp only [specFanAngle]
    by_cases h1 : cs.length = 1
    · rw [if_pos h1, if_pos h1]
    · rw [if_neg h1, if_neg h1]; ring

theorem childAngle_bound (w θ : ℚ) (hw : 0 ≤ w) (k j : ℕ) (hj : j < k) :
    |(if k = 1 then θ else θ - w/2 + w / ((k : ℚ) - 1) * (j : ℚ)) - θ| ≤ w/2 := by
  by_cases h1 : k = 1
  · rw [if_pos h1, sub_self, abs_zero]; linarith
  · rw [if_neg h1]
    have hk2 : 2 ≤ k := by omega
    have hk : (2 : ℚ) ≤ (k : ℚ) := by exact_mod_cast hk2
    have hkne : ((k : ℚ) - 1) ≠ 0 := by linarith
    have hjk : (j : ℚ) ≤ (k : ℚ) - 1 := by
      have hj1 : (j : ℚ) + 1 ≤ (k : ℚ) := by exact_mod_cast hj
      linarith
    have hdiv : 0 ≤ w / ((k : ℚ) - 1) := div_nonneg hw (by linarith)
    have h0 : 0 ≤ w / ((k : ℚ) - 1) * (j : ℚ) := mul_nonneg hdiv (by positivity)
    have h1' : w / ((k : ℚ) - 1) * (j : ℚ) ≤ w := by
      calc w / ((k : ℚ) - 1) * (j : ℚ) ≤ w / ((k : ℚ) - 1) * ((k : ℚ) - 1) :=
            mul_le_mul_of_nonneg_left hjk hdiv
        _ = w := div_mul_cancel₀ w hkne
    have heq : (θ - w/2 + w / ((k : ℚ) - 1) * (j : ℚ)) - θ =
        w / ((k : ℚ) - 1) * (j : ℚ) - w/2 := by ring
    rw [heq, abs_le]
    constructor <;> linarith

theorem mem_assignForest (rs sp : ℚ) (cs : List Node) :
    ∀ (i : ℕ) (f : ℕ → ℚ) (d : ℕ) (c' : Node),
    c' ∈ assignForest cs i f d rs sp →
    ∃ c0 ∈ cs, ∃ j : ℕ, j < cs.length ∧ c' = assignBranch c0 d (f (i + j)) rs sp := by
  induction cs with
  | nil => intro i f d c' h; simp only [assignForest, List.not_mem_nil] at h
  | cons c rest ih =>
    intro i f d c' h
    simp only [assignForest] at h
    rcases List.mem_cons.mp h with h1 | h2
    · refine ⟨c, List.mem_cons_self c rest, 0, by simp, ?_⟩
      rw [Nat.add_zero]
      exact h1
    · rcases ih (i + 1) f d c' h2 with ⟨c0, hc0, j, hj, he⟩
      refine ⟨c0, List.mem_cons_of_mem _ hc0, j + 1, by simpa using Nat.succ_lt_succ hj, ?_⟩
      have harith : i + 1 + j = i + (j + 1) := by omega
      rw [harith] at he
      exact he

theorem confined_forest (rs sp : ℚ) (cs : List Node) :
    ∀ (i : ℕ) (f : ℕ → ℚ) (d : ℕ),
    (∀ c ∈ cs, ∀ (d' : ℕ) (θ : ℚ), ChildAnglesConfined sp (assignBranch c d' θ rs sp)) →
    ChildAnglesConfinedForest sp (assignForest cs i f d rs sp) := by
  induction cs with
  | nil => intro i f d hih; trivial
  | cons c rest ih =>
    intro i f d hih
    exact ⟨hih c (List.mem_cons_self c rest) d (f i),
      ih (i + 1) f d (fun m hm => hih m (List.mem_cons_of_mem _ hm))⟩

theorem confined_assign (rs sp : ℚ) (hsp : 0 ≤ sp) (n : Node) :
    ∀ (d : ℕ) (θ : ℚ), ChildAnglesConfined sp (assignBranch n d θ rs sp) := by
  induction n using Node.inductionOn with
  | h t c dd a r cs ih =>
    intro d θ
    refine ⟨?_, confined_forest rs sp cs 0 _ (d + 1) (fun m hm d' θ' => ih m hm d' θ')⟩
    intro c' hc'
    rcases mem_assignForest rs sp cs 0 _ (d + 1) c' hc' with ⟨c0, hc0, j, hj, he⟩
    rw [he, assignBranch_angle]
    have hw : 0 ≤ sp / ((d : ℚ) + 1/2) := div_nonneg hsp (by positivity)
    exact childAngle_bound (sp / ((d : ℚ) + 1/2)) θ hw cs.length (0 + j) (by omega)

/-! ## Claim theorems -/

/-- C1, counterexample: the claim that sibling subtrees' angular windows never
overlap fails on the code.  On the concrete tree `c1cex` (root → `X` →
`A`,`B`,`C`, where `A` and `B` each fan out two grandchildren), with the
default `radius_step = spread = 1.6` and pi embedded as `157/50`, the windows
of the sibling subtrees `A` and `B` intersect: `A`'s right grandchild sits at
angle `θ_X − (16/75)·spread`, above `B`'s left grandchild at
`θ_X − (24/75)·spread`.  (The overlap is independent of the rational chosen
for pi: every angle in this tree is `pi/2` plus a rational offset.) -/
theorem sibling_wedge_overlap_found :
    ¬ SiblingWedges (layoutTree c1cex (8/5) (8/5) (157/50)) := by
  intro h
  norm_num [layoutTree, c1cex, assignBranch, assignForest, SiblingWedges,
    SiblingWedgesForest, WedgesSeparated, subtreeAngles, subtreeAnglesForest,
    List.pairwise_cons, List.forall_mem_cons, Node.angle] at h

/-- C1, amended: what the layout does guarantee is one level of nesting — for
any nonnegative spread, every node below the first level places each child's
own angle within the half-window `spread/(depth + 0.5)/2` either side of its
own angle.  Whole subtrees can escape that window, so the windows of two
sibling subtrees may overlap (see the counterexample). -/
theorem child_angles_confined_in_parent_window :
    ∀ (t : Node) (rs sp piv : ℚ), 0 ≤ sp →
    ChildAnglesConfinedForest sp (layoutTree t rs sp piv).children := by
  intro t rs sp piv hsp
  cases t with
  | mk tt c d a r cs =>
    show ChildAnglesConfinedForest sp (assignForest cs 0 _ 1 rs sp)
    exact confined_forest rs sp cs 0 _ 1 (fun m hm d' θ' => confined_assign rs sp hsp m d' θ')

/-- Witness for C1's amended theorem at the counterexample tree and the default
spread. -/
theorem child_angles_confined_in_parent_window_witness :
    (0 : ℚ) ≤ 8/5 ∧
    ChildAnglesConfinedForest (8/5) (layoutTree c1cex (8/5) (8/5) (157/50)).children :=
  ⟨by norm_num,
    child_angles_confined_in_parent_window c1cex (8/5) (8/5) (157/50) (by norm_num)⟩

/-- C2, counterexample: on the scenario input the markdown renderer does not
produce the four-space-indented lines the claim (following the spec's
Scenario 2 display) asserts: `_walk` starts the root's children at depth 0
and `"    " * 0` is empty. -/
theorem md_indent_scenario_counterexample :
    (buildTree scenarioRaw 0).toOption.map mdLines ≠
      some ["# Root", "", "    - A", "    - B"] := by
  decide

/-- C2, amended: for the scenario input the markdown renderer's output is
exactly the lines `# Root`, an empty line, `- A`, `- B` — the root's children
are rendered as list items with no indentation (depth 0). -/
theorem md_scenario_lines :
    (buildTree scenarioRaw 0).toOption.map mdLines =
      some ["# Root", "", "- A", "- B"] := by
  decide

/-- C3: the layout's angle assignment equals the spec's reference definition —
root at `pi/2`, first-level children at `pi/2 − 2·pi·i/N`, and every deeper
node at depth `d` fanning its children across a window `spread/(d + 0.5)`
centred on its own angle (single child inherits the angle, several span the
window edge-to-edge) — for every tree and all parameter values. -/
theorem layout_angles_match_spec :
    ∀ (t : Node) (rs sp piv : ℚ),
    subtreeAngles (layoutTree t rs sp piv) = specAnglesOf t sp piv := by
  intro t rs sp piv
  cases t with
  | mk tt c d a r cs =>
    show piv/2 :: subtreeAnglesForest (assignForest cs 0 _ 1 rs sp) =
      piv/2 :: specForestAngles cs 0 (specFirstLevelAngle piv cs.length) 1 sp
    congr 1
    refine spec_forest rs sp cs 0 _ _ 1 ?_ (fun m hm d' θ' => spec_assign rs sp m d' θ')
    intro j
    rfl

/-- C4: after layout, every node's radius is its structural depth times
`radius_step` (the root, at depth 0, gets radius 0), for every input tree and
every parameter value — so radius depends only on depth and siblings are
always equidistant from the root. -/
theorem radius_eq_depth_mul_step :
    ∀ (t : Node) (rs sp piv : ℚ),
    List.Forall (fun p => p.1.radius = (p.2 : ℚ) * rs)
      (nodesWithDepth (layoutTree t rs sp piv) 0) := by
  intro t rs sp piv
  rw [List.forall_iff_forall_mem]
  intro p hp
  cases t with
  | mk tt c d a r cs =>
    simp only [layoutTree, nodesWithDepth] at hp
    rcases List.mem_cons.mp hp with h1 | h2
    · rw [h1]
      show (0 : ℚ) = ((0 : ℕ) : ℚ) * rs
      simp
    · exact radius_forest rs sp cs 0 _ 1 p
        (fun c' hc' d' θ' p' hp' => radius_assign rs sp c' d' θ' p' hp') h2

/-- C5: for the scenario input the ASCII renderer's output is exactly the
lines `Root`, `│`, `├── A`, `│`, an empty line, `└── B` — childless
first-level nodes produce only their connector line, with the spacer between
non-last top-level siblings. -/
theorem ascii_scenario_lines :
    (buildTree scenarioRaw 0).toOption.map asciiLines =
      some ["Root", "│", "├── A", "│", "", "└── B"] := by
  decide

/-- C6: when the root document lacks a `title`, the run fails with the
malformed-input error and performs no file write — `build_tree` raises before
`main` reaches the render step, so no output file is created. -/
theorem missing_title_aborts_before_write :
    ∀ (input : Raw) (fmt : Fmt) (piv : ℚ), input.title = none →
    (mainRun input fmt piv).2 = some BuildErr.missingTitle ∧
    ∀ e ∈ (mainRun input fmt piv).1, e.isWrite = false := by
  intro input fmt piv h
  cases input with
  | mk title c cs =>
    have ht : title = none := h
    subst ht
    refine ⟨rfl, ?_⟩
    intro e he
    rcases List.mem_cons.mp he with h1 | h2
    · rw [h1]; rfl
    · rcases List.mem_cons.mp h2 with h3 | h4
      · rw [h3]; rfl
      · exact absurd h4 (List.not_mem_nil e)

/-- Witness for C6 at the concrete empty document with no title, ascii
format. -/
theorem missing_title_aborts_before_write_witness :
    (mainRun (Raw.mk none none []) Fmt.ascii 0).2 = some BuildErr.missingTitle ∧
    ∀ e ∈ (mainRun (Raw.mk none none []) Fmt.ascii 0).1, e.isWrite = false :=
  missing_title_aborts_before_write (Raw.mk none none []) Fmt.ascii 0 rfl

/-- C7: for every tree (whose root label survives stripping — i.e. the root
line is not itself shaped like a spacer or connector line), the markdown and
the ASCII renderer both emit exactly the tree's pre-order label sequence once
their lines are stripped of formatting (indentation, heading marker, bullet,
ancestor guides, connectors, spacers); in particular the two renderers' label
sequences are identical and follow the input's child ordering. -/
theorem renderers_emit_same_preorder_labels :
    ∀ t : Node, asciiStripLine t.label = some t.label →
    List.filterMap mdStripLine (mdLines t) = labelsPre t ∧
    List.filterMap asciiStripLine (asciiLines t) = labelsPre t := by
  intro t hroot
  constructor
  · cases t with
    | mk tt c d a r cs =>
      show List.filterMap mdStripLine
          (("# " ++ Node.label (.mk tt c d a r cs)) :: "" :: mdWalkForest cs 0) =
        Node.label (.mk tt c d a r cs) :: labelsForest cs
      rw [List.filterMap_cons_some (mdStrip_heading _),
        List.filterMap_cons_none mdStrip_blank,
        mdForest_strip cs 0 (fun m hm d' => mdWalk_strip m d')]
  · cases t with
    | mk tt c d a r cs =>
      cases cs with
      | nil =>
        show List.filterMap asciiStripLine [Node.label (.mk tt c d a r [])] =
          Node.label (.mk tt c d a r []) :: labelsForest []
        rw [List.filterMap_cons_some hroot]
        rfl
      | cons c0 rest =>
        show List.filterMap asciiStripLine
            (Node.label (.mk tt c d a r (c0 :: rest)) :: "│" :: asciiTop (c0 :: rest)) =
          Node.label (.mk tt c d a r (c0 :: rest)) :: labelsForest (c0 :: rest)
        rw [List.filterMap_cons_some hroot,
          List.filterMap_cons_none asciiStrip_spacer, asciiTop_strip]

/-- Witness for C7 at the scenario tree. -/
theorem renderers_emit_same_preorder_labels_witness :
    List.filterMap mdStripLine (mdLines scenarioTree) = labelsPre scenarioTree ∧
    List.filterMap asciiStripLine (asciiLines scenarioTree) = labelsPre scenarioTree :=
  renderers_emit_same_preorder_labels scenarioTree rfl

/-- C8: for every input document that builds successfully, the depth invariant
(root depth 0, each child one more than its parent) holds after `build_tree`
and still holds after `layout_tree`, for all layout parameters. -/
theorem depth_invariant_after_build_and_layout :
    ∀ (raw : Raw) (rs sp piv : ℚ) (t : Node), buildTree raw 0 = .ok t →
    DepthOk t 0 ∧ DepthOk (layoutTree t rs sp piv) 0 := by
  intro raw rs sp piv t h
  have h0 := depthOk_build raw 0 t h
  refine ⟨h0, ?_⟩
  cases t with
  | mk tt c d a r cs =>
    have hd : d = 0 := h0.1
    exact ⟨hd, depthOkForest_assign cs 0 _ 1 rs sp
      (fun m hm d' θ' => depthOk_assign m d' θ' rs sp)⟩

/-- Witness for C8 at the scenario document. -/
theorem depth_invariant_after_build_and_layout_witness :
    DepthOk scenarioTree 0 ∧ DepthOk (layoutTree scenarioTree 1 1 1) 0 :=
  depth_invariant_after_build_and_layout scenarioRaw 1 1 1 scenarioTree rfl

/-- C9: layout (`layout_tree` with `_assign_branch`) only touches `depth`,
`angle`, `radius`: erasing those three fields gives the same shape tree —
same titles, codes, and child lists in the same order (hence the same
implicit parent relation) — before and after layout. -/
theorem layout_preserves_shape :
    ∀ (t : Node) (rs sp piv : ℚ), shapeOf (layoutTree t rs sp piv) = shapeOf t := by
  intro t rs sp piv
  cases t with
  | mk tt c d a r cs =>
    show Shape.mk tt c (shapeForest (assignForest cs 0 _ 1 rs sp)) =
      Shape.mk tt c (shapeForest cs)
    rw [shape_forest rs sp cs 0 _ 1 (fun m hm d' θ' => shape_assign rs sp m d' θ')]

/-- C10: for a childless root the markdown renderer writes exactly the heading
`# ` + label, a newline, and one more newline (the unconditional blank
separator), regardless of the other node fields. -/
theorem md_childless_root_output :
    ∀ (t : String) (c : Option String) (d : ℕ) (a r : ℚ),
    exportMarkdown (Node.mk t c d a r []) =
      "# " ++ (Node.mk t c d a r []).label ++ "\n" ++ "\n" := by
  intro t c d a r
  apply string_eq_of_data
  rw [show exportMarkdown (Node.mk t c d a r []) =
    ((("# " ++ (Node.mk t c d a r []).label) ++ "\n") ++ "") ++ "\n" from rfl]
  simp [string_data_append]

end WBS
